import Mathlib

/-!
# Verification of the JurisScope retrieval-citation pipeline

A shallow embedding, in Lean 4, of the citation-normalization and
citation-rendering logic of `ChatInterface.tsx` (`handleSendMessage` and
`CitationText`), of the API route handlers for interactive ask
(`app/api/qa/route.ts`) and table jobs (`app/api/table/batch-analyze` and
`app/api/table/custom-column`), and — modelled from the spec, because the
backend retrieval sources are not part of the repository snapshot — of the
retrieval orchestrator's reranker fallback.

Texts are modelled as `List Char`.  The JavaScript regular expression
`\[(\d+(?:,\s*\d+)*)\]` used both by `handleSendMessage`
(`matchAll`/`replace`) and by `CitationText` (`split`) is embedded as a
character-level scanner with the same leftmost-match, greedy semantics; for
this pattern greedy matching never needs backtracking (each `(?:,\s*\d+)`
iteration starts with `,`, which can never be taken by the closing `]`), so
the scanner below is an exact model.  Recursions are made structural (with
fuel where needed) so that every definition evaluates inside the kernel.
-/

namespace JurisScope

/-- Characters matched by the JavaScript regex class `\s` (the answer texts
involved are ASCII; the extra Unicode space code points of `\s` play no
role). -/
def isSpaceChar (c : Char) : Bool :=
  c = ' ' || c = '\t' || c = '\n' || c = '\r' || c = '\x0b' || c = '\x0c'

/-- Characters matched by the JavaScript regex class `\d`, i.e. `[0-9]`. -/
def isDigitChar (c : Char) : Bool :=
  '0' ≤ c && c ≤ '9'

/-- States of the matcher for the part of the citation pattern
`\[(\d+(?:,\s*\d+)*)\]` that follows the opening bracket:
`start` expects the first digit, `run` is inside a digit run,
`afterComma` is inside the `\s*` that may follow a comma. -/
inductive MState where
  | start
  | run
  | afterComma
deriving DecidableEq, Repr

/-- Matcher for `\d+(?:,\s*\d+)*\]` at the head of the input (starting in
state `start`).  On success, return the characters of the capture group
together with the rest of the input after the closing `]`.  For this
pattern greedy matching never backtracks (a `,` can never serve as the
closing `]`, a digit never as a `,`), so this automaton is an exact model
of the JavaScript regex. -/
def matchAux : MState → List Char → Option (List Char × List Char)
  | _, [] => none
  | .start, c :: cs =>
    if isDigitChar c then (matchAux .run cs).map (fun p => (c :: p.1, p.2)) else none
  | .run, c :: cs =>
    if isDigitChar c then (matchAux .run cs).map (fun p => (c :: p.1, p.2))
    else if c = ']' then some ([], cs)
    else if c = ',' then (matchAux .afterComma cs).map (fun p => (c :: p.1, p.2))
    else none
  | .afterComma, c :: cs =>
    if isSpaceChar c then (matchAux .afterComma cs).map (fun p => (c :: p.1, p.2))
    else if isDigitChar c then (matchAux .run cs).map (fun p => (c :: p.1, p.2))
    else none

/-- Matcher for the full citation pattern `\[(\d+(?:,\s*\d+)*)\]` at the
head of the input. -/
def matchGroup : List Char → Option (List Char × List Char)
  | [] => none
  | c :: cs => if c = '[' then matchAux .start cs else none

/-- One segment of the answer text: either a maximal run of characters not
part of any citation match, or the capture content of one bracket group. -/
inductive Seg where
  | lit : List Char → Seg
  | grp : List Char → Seg
deriving DecidableEq, Repr

/-- Prepends a literal character, merging with a leading literal segment so
that literal runs stay maximal (matching the parts produced by
`String.prototype.split` with the capturing citation regex). -/
def consLit (c : Char) : List Seg → List Seg
  | Seg.lit s :: t => Seg.lit (c :: s) :: t
  | segs => Seg.lit [c] :: segs

/-- Fuelled scanner: try a citation match at each position, left to right,
exactly as a global JavaScript regex does in `matchAll` / `replace` /
`split`.  The fuel only serves to make the recursion structural; it always
exceeds the number of characters consumed. -/
def scanSegsF : Nat → List Char → List Seg
  | 0, _ => []
  | _, [] => []
  | fuel + 1, c :: cs =>
    match matchGroup (c :: cs) with
    | some (content, rest) => Seg.grp content :: scanSegsF fuel rest
    | none => consLit c (scanSegsF fuel cs)

/-- Scanner for all citation matches of a text, splitting it into literal
and group segments. -/
def scanSegs (l : List Char) : List Seg :=
  scanSegsF l.length l

/-- Renders segments back to text, `f` giving the replacement text of each
group's capture content. -/
def renderSegs (f : List Char → List Char) : List Seg → List Char
  | [] => []
  | Seg.lit s :: t => s ++ renderSegs f t
  | Seg.grp c :: t => f c ++ renderSegs f t

/-- The original bracketed spelling of a group. -/
def bracketed (content : List Char) : List Char :=
  '[' :: content ++ [']']

/-- The capture contents of the group segments, in document order (the
list `matches` of `handleSendMessage`, reduced to the capture group). -/
def segsGroups : List Seg → List (List Char)
  | [] => []
  | Seg.lit _ :: t => segsGroups t
  | Seg.grp c :: t => c :: segsGroups t

/-- Embedding of `String.prototype.split(',')` on a list of characters. -/
def splitOnComma : List Char → List (List Char)
  | [] => [[]]
  | c :: cs =>
    if c = ',' then [] :: splitOnComma cs
    else
      match splitOnComma cs with
      | p :: ps => (c :: p) :: ps
      | [] => [[c]]

/-- Embedding of `String.prototype.trim()` (restricted, like `isSpaceChar`,
to ASCII whitespace). -/
def trimChars (s : List Char) : List Char :=
  ((s.dropWhile isSpaceChar).reverse.dropWhile isSpaceChar).reverse

/-- Decimal value of a digit string, most significant digit first.  On the
`\s*\d+`-shaped pieces produced by splitting a matched bracket group on
commas and trimming, this is exactly what JavaScript `parseInt` returns. -/
def natOfDigits (s : List Char) : Nat :=
  s.foldl (fun a c => 10 * a + (c.toNat - 48)) 0

/-- Embedding of `parseInt(piece.trim())` for one comma-separated piece of
a bracket group's content. -/
def parsePiece (p : List Char) : Nat :=
  natOfDigits (trimChars p)

/-- Embedding of `content.split(',').map(n => parseInt(n.trim()))`: the
citation numbers of one bracket group. -/
def parseNums (content : List Char) : List Nat :=
  (splitOnComma content).map parsePiece

/-- The decimal digit characters `0`–`9`. -/
def digitChar : Nat → Char
  | 0 => '0' | 1 => '1' | 2 => '2' | 3 => '3' | 4 => '4'
  | 5 => '5' | 6 => '6' | 7 => '7' | 8 => '8' | _ => '9'

/-- Fuelled decimal formatting (the fuel only makes the recursion
structural; `n + 1` is always enough fuel for `n`). -/
def natToCharsF : Nat → Nat → List Char → List Char
  | 0, _, acc => acc
  | fuel + 1, n, acc =>
    if n < 10 then digitChar n :: acc
    else natToCharsF fuel (n / 10) (digitChar (n % 10) :: acc)

/-- Decimal spelling of a natural number, as JavaScript renders a number
into a template string. -/
def natToChars (n : Nat) : List Char :=
  natToCharsF (n + 1) n []

/-- Embedding of `Array.prototype.join(', ')`. -/
def joinCommaSp : List (List Char) → List Char
  | [] => []
  | [s] => s
  | s :: t => s ++ ',' :: ' ' :: joinCommaSp t

/-- Distinct elements of a list, in order of first appearance: the contents
of a JavaScript `Set` (`[...new Set(xs)]`), or the keys of a `Map`, built
by inserting the elements left to right. -/
def dedupFirst {α : Type} [DecidableEq α] : List α → List α
  | [] => []
  | n :: t => n :: (dedupFirst t).filter (fun m => m ≠ n)

/-- Position of the first occurrence of an element, if any. -/
def findIdxOf {α : Type} [DecidableEq α] : List α → α → Option Nat
  | [], _ => none
  | m :: t, n => if m = n then some 0 else (findIdxOf t n).map (· + 1)

/-- The numbers of all bracket groups of a segment list, in document
order. -/
def groupNums : List Seg → List Nat
  | [] => []
  | Seg.lit _ :: t => groupNums t
  | Seg.grp c :: t => parseNums c ++ groupNums t

/-- The list `citationOrder` of `handleSendMessage`: each distinct citation
number of the raw answer, in order of first appearance (the insertion order
of the keys of `citationMap`). -/
def citationOrder (t : List Char) : List Nat :=
  dedupFirst (groupNums (scanSegs t))

/-- The value `citationMap.get(oldNum)`: the new sequential number
(starting at 1) assigned to an original citation number; `none` when the
number was never seen.  `citationMap` assigns `nextNumber++` to each
distinct number in order of first appearance, so the value is the position
in `citationOrder`, plus one. -/
def newNumber (order : List Nat) (n : Nat) : Option Nat :=
  (findIdxOf order n).map (· + 1)

/-- Rendering of a number list back to a bracket group, as the `replace`
callback's template `[...]` with `join(', ')` does. -/
def renderGroup (ns : List Nat) : List Char :=
  '[' :: joinCommaSp (ns.map natToChars) ++ [']']

/-- The `replace` callback of `handleSendMessage`: deduplicate the numbers
of one bracket group, map them through the citation map (dropping unmapped
ones), sort ascending, and re-render as `[a, b, ...]`.  The JavaScript
numeric comparator sort is modelled by insertion sort; the mapped numbers
are distinct, so every correct sort produces the same list. -/
def rewriteGroup (order : List Nat) (content : List Char) : List Char :=
  renderGroup (((dedupFirst (parseNums content)).filterMap
      (newNumber order)).insertionSort (· ≤ ·))

/-- The string `processedContent` of `handleSendMessage`: the raw answer
with every bracket group rewritten to the new sequential numbering. -/
def processedText (t : List Char) : List Char :=
  renderSegs (rewriteGroup (citationOrder t)) (scanSegs t)

/-- JavaScript array indexing `l[i]`: `undefined` (here `none`) when `i` is
negative or past the end. -/
def jsIndex {α : Type} (l : List α) (i : Int) : Option α :=
  if i < 0 then none else l.get? i.toNat

/-- One retrieved citation as returned by the backend `/api/ask` call
(an entry of `data.citations`), with the fields `handleSendMessage`
reads. -/
structure Citation where
  doc_id : Option String
  elastic_doc_id : String
  doc_title : String
  page : Option Nat
  snippet : String
deriving DecidableEq, Repr

instance : Inhabited Citation :=
  ⟨⟨none, "", "", none, ""⟩⟩

/-- The selection step of `reorderedReferences`: for each entry of
`citationOrder` take `data.citations[oldNum - 1]`, dropping the `null`
results of numbers with no backing citation. -/
def reorderedEvidence (t : List Char) (cits : List Citation) : List Citation :=
  (citationOrder t).filterMap (fun (n : Nat) => jsIndex cits ((n : Int) - 1))

/-- The citation-normalization core of `handleSendMessage`: the processed
answer text together with the reordered evidence backing its markers. -/
def normalize (t : List Char) (cits : List Citation) : List Char × List Citation :=
  (processedText t, reorderedEvidence t cits)

/-- One entry of the `references` array attached to a chat message
(interface `Reference` of `ChatInterface.tsx`). -/
structure Reference where
  id : String
  documentId : String
  documentName : String
  pageNumber : Option Nat
  snippet : String
deriving DecidableEq, Repr

/-- The expression `cite.doc_id || cite.elastic_doc_id` (JavaScript `||`
falls through on `undefined` and on the empty string). -/
def docIdOf (c : Citation) : String :=
  match c.doc_id with
  | some s => if s = "" then c.elastic_doc_id else s
  | none => c.elastic_doc_id

/-- Construction of one `Reference` in `reorderedReferences`; `ts` is the
value of `Date.now()` and `idx` the position inside `citationOrder`. -/
def mkRef (ts idx : Nat) (c : Citation) : Reference :=
  { id := "ref-" ++ Nat.repr ts ++ "-" ++ Nat.repr idx
  , documentId := docIdOf c
  , documentName := c.doc_title
  , pageNumber := c.page
  , snippet := c.snippet }

/-- The list `reorderedReferences` of `handleSendMessage`: map over
`citationOrder` with the element index, look up the backing citation,
drop `null` entries. -/
def reorderedReferences (ts : Nat) (t : List Char) (cits : List Citation) :
    List Reference :=
  (citationOrder t).enum.filterMap
    (fun (p : Nat × Nat) => (jsIndex cits ((p.2 : Int) - 1)).map (mkRef ts p.1))

/-- The full answer-processing step of `handleSendMessage` (lines 380–434):
processed content plus reordered reference objects; `ts` is the `Date.now()`
value read while building the reference ids. -/
def processAnswer (ts : Nat) (t : List Char) (cits : List Citation) :
    List Char × List Reference :=
  (processedText t, reorderedReferences ts t cits)

/-- The fields of a `Reference` that carry evidence content (everything
except the synthesized `id`). -/
def refPayload (r : Reference) : String × String × Option Nat × String :=
  (r.documentId, r.documentName, r.pageNumber, r.snippet)

/-- One node emitted by the `CitationText` renderer: a plain text span, or
a citation chip for number `n` backed by a reference. -/
inductive RenderNode where
  | plain : List Char → RenderNode
  | cite : Nat → Reference → RenderNode
deriving DecidableEq, Repr

/-- Rendering of one split part by `CitationText`: a literal part becomes a
plain span; a bracket-group part is parsed and each number is rendered as a
citation chip when `references[refNumber - 1]` exists, and as nothing
(`null`) otherwise. -/
def renderSeg (refs : List Reference) : Seg → List RenderNode
  | Seg.lit s => [RenderNode.plain s]
  | Seg.grp c =>
    (parseNums c).filterMap
      (fun (n : Nat) => (jsIndex refs ((n : Int) - 1)).map (RenderNode.cite n))

/-- Rendering of a whole text node by `CitationText`: split by the citation
pattern, then render each part. -/
def renderText (t : List Char) (refs : List Reference) : List RenderNode :=
  (scanSegs t).foldr (fun s acc => renderSeg refs s ++ acc) []

/-- One document as returned by the backend `/api/documents` endpoint, with
the fields read by the table route handlers. -/
structure BackendDoc where
  id : String
  title : String
  mime : Option String
  status : String
deriving DecidableEq, Repr

/-- One document as forwarded to the backend job endpoints. -/
structure MappedDoc where
  id : String
  name : String
  mimeType : String
  status : String
  firestoreDocId : String
deriving DecidableEq, Repr

/-- The mapping applied to each fetched document in both table route
handlers. -/
def mapDoc (d : BackendDoc) : MappedDoc :=
  { id := d.id
  , name := d.title
  , mimeType := d.mime.getD "application/pdf"
  , status := if d.status = "indexed" then "completed" else d.status
  , firestoreDocId := d.id }

/-- Response of the backend job-creation endpoint, as the route handlers
see it. -/
structure JobResp where
  ok : Bool
  status : Nat
  job_id : Option String
  detail : Option String
deriving DecidableEq, Repr

/-- Outcome of a table route handler, recording the HTTP status returned,
the job id surfaced to the client, and whether the backend job-creation
endpoint was invoked at all. -/
structure RouteOutcome where
  status : Nat
  jobId : Option String
  backendJobCalled : Bool
deriving DecidableEq, Repr

/-- The `POST` handler of `app/api/table/batch-analyze/route.ts`: map the
fetched documents, reject with 404 before calling the backend when none are
found, otherwise forward to the backend job endpoint. -/
def batchAnalyzePOST (docs : List BackendDoc)
    (backend : List MappedDoc → JobResp) : RouteOutcome :=
  let documents := docs.map mapDoc
  if documents.length = 0 then
    { status := 404, jobId := none, backendJobCalled := false }
  else
    let resp := backend documents
    if resp.ok then
      { status := 200, jobId := resp.job_id, backendJobCalled := true }
    else
      { status := resp.status, jobId := none, backendJobCalled := true }

/-- The `POST` handler of `app/api/table/custom-column/route.ts`; its
document-validation logic is identical to the batch-analyze handler. -/
def customColumnPOST (docs : List BackendDoc)
    (backend : List MappedDoc → JobResp) : RouteOutcome :=
  let documents := docs.map mapDoc
  if documents.length = 0 then
    { status := 404, jobId := none, backendJobCalled := false }
  else
    let resp := backend documents
    if resp.ok then
      { status := 200, jobId := resp.job_id, backendJobCalled := true }
    else
      { status := resp.status, jobId := none, backendJobCalled := true }

/-- Payload of a successful backend `/api/ask` response. -/
structure AskData where
  answer : String
  citations : List Citation
deriving DecidableEq, Repr

/-- Outcome of the backend call made by `app/api/qa/route.ts`: a successful
response, a non-OK HTTP response, or a network/parse failure (the `catch`
branch). -/
inductive BackendResult where
  | success (data : AskData)
  | httpError (status : Nat) (body : String)
  | netError (msg : String)
deriving DecidableEq, Repr

/-- The JSON response surfaced to the caller of `/api/qa`. -/
structure ApiResponse where
  status : Nat
  answer : Option String
  citations : Option (List Citation)
  error : Option String
  details : Option String
deriving DecidableEq, Repr

/-- The `POST` handler of `app/api/qa/route.ts`: pass a successful backend
response through unchanged; turn a non-OK backend status into an error JSON
with the same status and no answer payload; turn a thrown error into a 500
error JSON with no answer payload. -/
def qaPOST : BackendResult → ApiResponse
  | .success d =>
    { status := 200, answer := some d.answer, citations := some d.citations
    , error := none, details := none }
  | .httpError s body =>
    { status := s, answer := none, citations := none
    , error := some ("Backend error: " ++ Nat.repr s), details := some body }
  | .netError msg =>
    { status := 500, answer := none, citations := none
    , error := some "Failed to connect to backend", details := some msg }

/-- A chat message as built by `handleSendMessage`. -/
structure ChatMessage where
  content : String
  references : Option (List Reference)
deriving DecidableEq, Repr

/-- The fallback assistant message built in the `catch` branch of
`handleSendMessage`: a fixed apology, with no references attached. -/
def chatErrorFallback : ChatMessage :=
  { content := "Sorry, I encountered an error while processing your question. Please ensure the backend is running and try again."
  , references := none }

/-- Specification-side dedup (claim C1 / spec §4.3): keep the first
occurrence of each element, tracking the already-seen ones. -/
def dedupSeen (seen : List Nat) : List Nat → List Nat
  | [] => []
  | n :: t => if n ∈ seen then dedupSeen seen t else n :: dedupSeen (n :: seen) t

/-- Specification-side new-number table (claim C1 / spec §4.3 step 3):
walk all referenced indices in document order and assign the next
sequential number, starting at 1, to each index not yet in the table. -/
def specAssign : List Nat → List (Nat × Nat) → List (Nat × Nat)
  | [], table => table
  | n :: rest, table =>
    if (table.lookup n).isSome then specAssign rest table
    else specAssign rest (table ++ [(n, table.length + 1)])

/-- The specification-side table for a whole answer text. -/
def specTable (t : List Char) : List (Nat × Nat) :=
  specAssign (groupNums (scanSegs t)) []

/-- Association list pairing each element of a list with its 1-based
position offset by `k` (proof-side normal form of `specAssign`). -/
def tableOf : List Nat → Nat → List (Nat × Nat)
  | [], _ => []
  | n :: t, k => (n, k + 1) :: tableOf t (k + 1)

/-- Specification-side rewrite of one bracket group (claim C1 / spec §4.3
steps 2 and 4): deduplicate the indices within the group, map each through
the new-number table, sort ascending, and re-render. -/
def specRewrite (table : List (Nat × Nat)) (content : List Char) : List Char :=
  renderGroup (((dedupSeen [] (parseNums content)).map
      (fun n => (table.lookup n).getD 0)).mergeSort (· ≤ ·))

/-- The original index assigned the new number `k` by the table (claim C1 /
spec §4.3 step 5). -/
def specInverse (table : List (Nat × Nat)) (k : Nat) : Nat :=
  ((table.find? (fun p => p.2 = k)).map Prod.fst).getD 0

/-- Specification-side normalization following the words of claim C1 and
spec §4.3: rewrite every bracket group through the new-number table, and
build the reordered evidence by taking, for each new sequential number in
order, the evidence item at the corresponding original 1-based index. -/
def specNormalize (t : List Char) (ev : List Citation) : List Char × List Citation :=
  (renderSegs (specRewrite (specTable t)) (scanSegs t),
   (List.range (specTable t).length).map
     (fun i => ev.getD (specInverse (specTable t) (i + 1) - 1) default))

/-- Modelled from the spec (§4.1): the backend Retrieval Orchestrator is
not part of the repository snapshot (only the spec describes it), so its
reciprocal-rank-fusion scoring is modelled from the spec's words.  A
candidate's fused score sums `1/(rank + 60)` over the lexical and the
vector ranking, a candidate missing from one ranking receiving no
contribution from it; ranks are 1-based positions. -/
def rrfScore (lex vec : List String) (id : String) : ℚ :=
  (match findIdxOf lex id with
   | some r => 1 / ((r : ℚ) + 1 + 60)
   | none => 0) +
  (match findIdxOf vec id with
   | some r => 1 / ((r : ℚ) + 1 + 60)
   | none => 0)

/-- Modelled from the spec (§4.1 step 2): the fused candidate list — all
candidates of either ranking, ordered by fused score, highest first. -/
def fusedCandidates (lex vec : List String) : List String :=
  (dedupFirst (lex ++ vec)).insertionSort
    (fun a b => rrfScore lex vec b ≤ rrfScore lex vec a)

/-- Modelled from the spec (§4.1 steps 2–5): `retrieve` takes the top
`M = max(4k, 20)` fused candidates, passes them to the reranker, and
truncates to `k`; when the reranker is unreachable (`none`), it degrades
gracefully by returning the fused order truncated to `k`. -/
def retrieve (lex vec : List String)
    (rerank : List String → Option (List String)) (k : Nat) : List String :=
  let cands := (fusedCandidates lex vec).take (max (4 * k) 20)
  match rerank cands with
  | some reranked => reranked.take k
  | none => cands.take k

/-- A successful tail match consumed exactly the capture content followed
by `]`. -/
theorem matchAux_eq (st : MState) (l tl rest : List Char)
    (h : matchAux st l = some (tl, rest)) : l = tl ++ ']' :: rest := by
  induction l generalizing st tl with
  | nil => simp [matchAux] at h
  | cons c cs ih =>
    match st with
    | .start =>
      rw [matchAux] at h
      by_cases hd : isDigitChar c
      · rw [if_pos hd] at h
        match hm : matchAux .run cs with
        | some (tl0, r0) =>
          rw [hm] at h
          simp only [Option.map_some', Option.some.injEq, Prod.mk.injEq] at h
          obtain ⟨rfl, rfl⟩ := h
          simpa using ih _ _ hm
        | none => rw [hm] at h; simp at h
      · rw [if_neg hd] at h; simp at h
    | .run =>
      rw [matchAux] at h
      by_cases hd : isDigitChar c
      · rw [if_pos hd] at h
        match hm : matchAux .run cs with
        | some (tl0, r0) =>
          rw [hm] at h
          simp only [Option.map_some', Option.some.injEq, Prod.mk.injEq] at h
          obtain ⟨rfl, rfl⟩ := h
          simpa using ih _ _ hm
        | none => rw [hm] at h; simp at h
      · rw [if_neg hd] at h
        by_cases hb : c = ']'
        · rw [if_pos hb] at h
          simp only [Option.some.injEq, Prod.mk.injEq] at h
          obtain ⟨rfl, rfl⟩ := h
          simp [hb]
        · rw [if_neg hb] at h
          by_cases hcm : c = ','
          · rw [if_pos hcm] at h
            match hm : matchAux .afterComma cs with
            | some (tl0, r0) =>
              rw [hm] at h
              simp only [Option.map_some', Option.some.injEq, Prod.mk.injEq] at h
              obtain ⟨rfl, rfl⟩ := h
              simpa using ih _ _ hm
            | none => rw [hm] at h; simp at h
          · rw [if_neg hcm] at h; simp at h
    | .afterComma =>
      rw [matchAux] at h
      by_cases hs : isSpaceChar c
      · rw [if_pos hs] at h
        match hm : matchAux .afterComma cs with
        | some (tl0, r0) =>
          rw [hm] at h
          simp only [Option.map_some', Option.some.injEq, Prod.mk.injEq] at h
          obtain ⟨rfl, rfl⟩ := h
          simpa using ih _ _ hm
        | none => rw [hm] at h; simp at h
      · rw [if_neg hs] at h
        by_cases hd : isDigitChar c
        · rw [if_pos hd] at h
          match hm : matchAux .run cs with
          | some (tl0, r0) =>
            rw [hm] at h
            simp only [Option.map_some', Option.some.injEq, Prod.mk.injEq] at h
            obtain ⟨rfl, rfl⟩ := h
            simpa using ih _ _ hm
          | none => rw [hm] at h; simp at h
        · rw [if_neg hd] at h; simp at h

/-- A successful group match consumed exactly `[`, the capture content,
and `]`. -/
theorem matchGroup_eq (l content rest : List Char)
    (h : matchGroup l = some (content, rest)) :
    l = '[' :: content ++ ']' :: rest := by
  match l with
  | [] => simp [matchGroup] at h
  | c :: cs =>
    by_cases hc : c = '['
    · rw [matchGroup, if_pos hc] at h
      rw [hc, matchAux_eq _ _ _ _ h]
      simp
    · rw [matchGroup, if_neg hc] at h; simp at h

theorem matchGroup_rest_length (l content rest : List Char)
    (h : matchGroup l = some (content, rest)) : rest.length < l.length := by
  have := matchGroup_eq l content rest h
  subst this
  simp only [List.cons_append, List.length_cons, List.length_append]
  omega

theorem scanSegsF_congr (f1 : Nat) : ∀ (f2 : Nat) (l : List Char),
    l.length ≤ f1 → l.length ≤ f2 → scanSegsF f1 l = scanSegsF f2 l := by
  induction f1 with
  | zero =>
    intro f2 l h1 _
    have : l = [] := List.length_eq_zero.mp (Nat.le_zero.mp h1)
    subst this
    cases f2 <;> rfl
  | succ f ih =>
    intro f2 l h1 h2
    match l with
    | [] => cases f2 <;> rfl
    | c :: cs =>
      match f2 with
      | 0 => exact absurd h2 (by simp)
      | f2' + 1 =>
        rw [scanSegsF, scanSegsF]
        match hm : matchGroup (c :: cs) with
        | some (content, rest) =>
          have hr := matchGroup_rest_length _ _ _ hm
          simp only [List.length_cons] at h1 h2 hr
          dsimp only
          rw [ih f2' rest (by omega) (by omega)]
        | none =>
          simp only [List.length_cons] at h1 h2
          dsimp only
          rw [ih f2' cs (by omega) (by omega)]

theorem scanSegs_nil : scanSegs [] = [] := rfl

theorem scanSegs_grp (c : Char) (cs content rest : List Char)
    (h : matchGroup (c :: cs) = some (content, rest)) :
    scanSegs (c :: cs) = Seg.grp content :: scanSegs rest := by
  have hr := matchGroup_rest_length _ _ _ h
  simp only [List.length_cons] at hr
  rw [scanSegs, List.length_cons, scanSegsF, h, scanSegs]
  dsimp only
  rw [scanSegsF_congr _ _ _ (by omega) (le_refl _)]

theorem scanSegs_lit (c : Char) (cs : List Char)
    (h : matchGroup (c :: cs) = none) :
    scanSegs (c :: cs) = consLit c (scanSegs cs) := by
  rw [scanSegs, List.length_cons, scanSegsF, h, scanSegs]

/-- Induction along the scanner's traversal. -/
theorem scanSegs_induction (P : List Char → Prop) (h0 : P [])
    (hgrp : ∀ c cs content rest, matchGroup (c :: cs) = some (content, rest) →
      P rest → P (c :: cs))
    (hlit : ∀ c cs, matchGroup (c :: cs) = none → P cs → P (c :: cs)) :
    ∀ l, P l
  | [] => h0
  | c :: cs => by
    match hm : matchGroup (c :: cs) with
    | some (content, rest) =>
      exact hgrp c cs content rest hm (scanSegs_induction P h0 hgrp hlit rest)
    | none =>
      exact hlit c cs hm (scanSegs_induction P h0 hgrp hlit cs)
termination_by l => l.length
decreasing_by
  · exact matchGroup_rest_length _ _ _ hm
  · simp

theorem renderSegs_consLit (f : List Char → List Char) (c : Char) (segs : List Seg) :
    renderSegs f (consLit c segs) = c :: renderSegs f segs := by
  match segs with
  | [] => rfl
  | Seg.lit s :: t => rfl
  | Seg.grp g :: t => rfl

/-- Scanning and re-rendering with the original bracketing is the
identity. -/
theorem renderSegs_scanSegs (l : List Char) :
    renderSegs bracketed (scanSegs l) = l := by
  induction l using scanSegs_induction with
  | h0 => rfl
  | hgrp c cs content rest h ih =>
    rw [scanSegs_grp c cs content rest h, renderSegs, ih, bracketed,
      matchGroup_eq _ _ _ h]
    simp
  | hlit c cs h ih =>
    rw [scanSegs_lit c cs h, renderSegs_consLit, ih]


theorem digitChar_isDigit (n : Nat) : isDigitChar (digitChar n) = true := by
  match n with
  | 0 => decide
  | 1 => decide
  | 2 => decide
  | 3 => decide
  | 4 => decide
  | 5 => decide
  | 6 => decide
  | 7 => decide
  | 8 => decide
  | n + 9 => rfl

theorem digitChar_toNat (n : Nat) (h : n < 10) : (digitChar n).toNat - 48 = n := by
  match n with
  | 0 => decide
  | 1 => decide
  | 2 => decide
  | 3 => decide
  | 4 => decide
  | 5 => decide
  | 6 => decide
  | 7 => decide
  | 8 => decide
  | 9 => decide
  | n + 10 => omega

theorem natToCharsF_eq (n : Nat) : ∀ (fuel : Nat) (acc : List Char), n < fuel →
    natToCharsF fuel n acc = natToChars n ++ acc := by
  induction n using Nat.strong_induction_on with
  | _ n ih =>
    intro fuel acc h
    match fuel with
    | 0 => omega
    | f + 1 =>
      by_cases h10 : n < 10
      · rw [natToCharsF, if_pos h10, natToChars, natToCharsF, if_pos h10]
        rfl
      · have hd : n / 10 < n := Nat.div_lt_self (by omega) (by omega)
        have hrhs : natToChars n = natToChars (n / 10) ++ [digitChar (n % 10)] := by
          have h1 : natToCharsF (n + 1) n [] = natToCharsF n (n / 10) [digitChar (n % 10)] := by
            rw [natToCharsF, if_neg h10]
          rw [natToChars, h1, ih (n / 10) hd n _ hd]
        rw [natToCharsF, if_neg h10, ih (n / 10) hd f _ (by omega), hrhs]
        simp

theorem natToChars_lt (n : Nat) (h : n < 10) : natToChars n = [digitChar n] := by
  rw [natToChars, natToCharsF, if_pos h]

theorem natToChars_ge (n : Nat) (h : ¬ n < 10) :
    natToChars n = natToChars (n / 10) ++ [digitChar (n % 10)] := by
  have hd : n / 10 < n := Nat.div_lt_self (by omega) (by omega)
  rw [natToChars, natToCharsF, if_neg h, natToCharsF_eq (n / 10) n _ hd]

theorem natOfDigits_append (s : List Char) (c : Char) :
    natOfDigits (s ++ [c]) = 10 * natOfDigits s + (c.toNat - 48) := by
  simp [natOfDigits, List.foldl_append]

theorem natOfDigits_natToChars (n : Nat) : natOfDigits (natToChars n) = n := by
  induction n using Nat.strong_induction_on with
  | _ n ih =>
    by_cases h10 : n < 10
    · rw [natToChars_lt n h10]
      show 10 * 0 + ((digitChar n).toNat - 48) = n
      rw [digitChar_toNat n h10]
      omega
    · have hd : n / 10 < n := Nat.div_lt_self (by omega) (by omega)
      rw [natToChars_ge n h10, natOfDigits_append, ih (n / 10) hd,
        digitChar_toNat (n % 10) (Nat.mod_lt _ (by omega))]
      omega

theorem natToChars_digits (n : Nat) : ∀ c ∈ natToChars n, isDigitChar c = true := by
  induction n using Nat.strong_induction_on with
  | _ n ih =>
    intro c hc
    by_cases h10 : n < 10
    · rw [natToChars_lt n h10] at hc
      simp only [List.mem_singleton] at hc
      rw [hc]
      exact digitChar_isDigit n
    · have hd : n / 10 < n := Nat.div_lt_self (by omega) (by omega)
      rw [natToChars_ge n h10] at hc
      rcases List.mem_append.mp hc with h1 | h2
      · exact ih (n / 10) hd c h1
      · simp only [List.mem_singleton] at h2
        rw [h2]
        exact digitChar_isDigit (n % 10)

theorem natToChars_ne_nil (n : Nat) : natToChars n ≠ [] := by
  by_cases h10 : n < 10
  · rw [natToChars_lt n h10]
    simp
  · rw [natToChars_ge n h10]
    simp

theorem isDigitChar_class {c : Char} (h : isDigitChar c = true) :
    isSpaceChar c = false ∧ c ≠ ',' ∧ c ≠ ']' ∧ c ≠ '[' := by
  rw [isDigitChar, Bool.and_eq_true, decide_eq_true_eq, decide_eq_true_eq] at h
  refine ⟨?_, ?_, ?_, ?_⟩
  · rw [isSpaceChar]
    simp only [Bool.or_eq_false_iff, decide_eq_false_iff_not]
    refine ⟨⟨⟨⟨⟨?_, ?_⟩, ?_⟩, ?_⟩, ?_⟩, ?_⟩ <;> rintro rfl <;> revert h <;> decide
  · rintro rfl; revert h; decide
  · rintro rfl; revert h; decide
  · rintro rfl; revert h; decide


theorem dropWhile_of_all_false {p : Char → Bool} :
    ∀ {l : List Char}, (∀ c ∈ l, p c = false) → l.dropWhile p = l
  | [], _ => rfl
  | c :: cs, h => by
    rw [List.dropWhile_cons_of_neg]
    rw [h c (by simp)]
    simp

theorem trimChars_of_digits {l : List Char}
    (h : ∀ c ∈ l, isDigitChar c = true) : trimChars l = l := by
  have hs : ∀ c ∈ l, isSpaceChar c = false :=
    fun c hc => (isDigitChar_class (h c hc)).1
  rw [trimChars, dropWhile_of_all_false hs,
    dropWhile_of_all_false (fun c hc => hs c (List.mem_reverse.mp hc)),
    List.reverse_reverse]

theorem trimChars_cons_space (l : List Char) : trimChars (' ' :: l) = trimChars l := by
  rw [trimChars, trimChars, List.dropWhile_cons_of_pos (by decide)]

theorem parsePiece_natToChars (n : Nat) : parsePiece (natToChars n) = n := by
  rw [parsePiece, trimChars_of_digits (natToChars_digits n), natOfDigits_natToChars]

theorem parsePiece_cons_space (p : List Char) : parsePiece (' ' :: p) = parsePiece p := by
  rw [parsePiece, trimChars_cons_space, parsePiece]

theorem splitOnComma_ne_nil : ∀ l : List Char, splitOnComma l ≠ []
  | [] => by simp [splitOnComma]
  | c :: cs => by
    rw [splitOnComma]
    by_cases hc : c = ','
    · rw [if_pos hc]; simp
    · rw [if_neg hc]
      match h : splitOnComma cs with
      | p :: ps => simp
      | [] => simp

theorem splitOnComma_comma (l : List Char) :
    splitOnComma (',' :: l) = [] :: splitOnComma l := by
  rw [splitOnComma, if_pos rfl]

theorem splitOnComma_cons_ne (c : Char) (l : List Char) (hc : c ≠ ',')
    (q : List Char) (qs : List (List Char)) (h : splitOnComma l = q :: qs) :
    splitOnComma (c :: l) = (c :: q) :: qs := by
  rw [splitOnComma, if_neg hc, h]

theorem splitOnComma_append (p : List Char) :
    ∀ (l q : List Char) (qs : List (List Char)), (∀ c ∈ p, c ≠ ',') →
      splitOnComma l = q :: qs → splitOnComma (p ++ l) = (p ++ q) :: qs := by
  induction p with
  | nil => intro l q qs _ h; simpa using h
  | cons c cs ih =>
    intro l q qs hp h
    rw [List.cons_append]
    rw [splitOnComma_cons_ne c (cs ++ l) (hp c (by simp)) (cs ++ q) qs
      (ih l q qs (fun d hd => hp d (by simp [hd])) h)]
    simp

theorem joinCommaSp_cons₂ (s t : List Char) (r : List (List Char)) :
    joinCommaSp (s :: t :: r) = s ++ ',' :: ' ' :: joinCommaSp (t :: r) := rfl

theorem parseNums_join : ∀ ns : List Nat, ns ≠ [] →
    parseNums (joinCommaSp (ns.map natToChars)) = ns
  | [], h => absurd rfl h
  | [n], _ => by
    have h1 : splitOnComma (natToChars n) = [natToChars n] := by
      have := splitOnComma_append (natToChars n) [] [] []
        (fun c hc => (isDigitChar_class (natToChars_digits n c hc)).2.1) rfl
      simpa using this
    rw [List.map_cons, List.map_nil, joinCommaSp, parseNums, h1, List.map_cons,
      List.map_nil, parsePiece_natToChars]
  | n :: m :: r, _ => by
    have ihr := parseNums_join (m :: r) (by simp)
    have hj : joinCommaSp (natToChars n :: List.map natToChars (m :: r)) =
        natToChars n ++ ',' :: ' ' :: joinCommaSp (List.map natToChars (m :: r)) := by
      rw [List.map_cons]
      exact joinCommaSp_cons₂ _ _ _
    rw [List.map_cons, hj, parseNums]
    match hsp : splitOnComma (joinCommaSp ((m :: r).map natToChars)) with
    | [] => exact absurd hsp (splitOnComma_ne_nil _)
    | q :: qs =>
      have h2 : splitOnComma (' ' :: joinCommaSp ((m :: r).map natToChars)) =
          (' ' :: q) :: qs := splitOnComma_cons_ne _ _ (by decide) _ _ hsp
      have h3 : splitOnComma (',' :: ' ' :: joinCommaSp ((m :: r).map natToChars)) =
          [] :: (' ' :: q) :: qs := by rw [splitOnComma_comma, h2]
      have h4 : splitOnComma (natToChars n ++
          ',' :: ' ' :: joinCommaSp ((m :: r).map natToChars)) =
          (natToChars n ++ []) :: (' ' :: q) :: qs :=
        splitOnComma_append (natToChars n) _ _ _
          (fun c hc => (isDigitChar_class (natToChars_digits n c hc)).2.1) h3
      rw [h4, List.map_cons, List.map_cons, List.append_nil, parsePiece_natToChars,
        parsePiece_cons_space]
      rw [parseNums, hsp, List.map_cons] at ihr
      rw [ihr]


theorem mem_dedupFirst {α : Type} [DecidableEq α] (a : α) :
    ∀ l : List α, a ∈ dedupFirst l ↔ a ∈ l
  | [] => Iff.rfl
  | n :: t => by
    rw [dedupFirst]
    by_cases ha : a = n
    · subst ha
      simp
    · simp only [List.mem_cons, List.mem_filter, mem_dedupFirst a t, ha,
        false_or, decide_eq_true_eq]
      constructor
      · exact fun h => h.1
      · exact fun h => ⟨h, ha⟩

theorem nodup_dedupFirst {α : Type} [DecidableEq α] :
    ∀ l : List α, (dedupFirst l).Nodup
  | [] => List.nodup_nil
  | n :: t => by
    rw [dedupFirst]
    refine List.Nodup.cons ?_ (List.Nodup.filter _ (nodup_dedupFirst t))
    intro hmem
    have := (List.mem_filter.mp hmem).2
    simp at this

theorem dedupFirst_of_nodup {α : Type} [DecidableEq α] :
    ∀ l : List α, l.Nodup → dedupFirst l = l
  | [], _ => rfl
  | n :: t, h => by
    rw [dedupFirst, dedupFirst_of_nodup t (List.Nodup.of_cons h)]
    rw [List.filter_eq_self.mpr]
    intro a ha
    have : a ≠ n := by
      rintro rfl
      exact (List.nodup_cons.mp h).1 ha
    simpa using this

theorem findIdxOf_eq_none {α : Type} [DecidableEq α] :
    ∀ (l : List α) (n : α), findIdxOf l n = none ↔ n ∉ l
  | [], n => by simp [findIdxOf]
  | m :: t, n => by
    rw [findIdxOf]
    by_cases h : m = n
    · subst h
      simp
    · rw [if_neg h]
      simp only [List.mem_cons]
      rw [Option.map_eq_none']
      rw [findIdxOf_eq_none t n]
      constructor
      · rintro hn (rfl | hmem)
        · exact h rfl
        · exact hn hmem
      · intro hn
        exact fun hmem => hn (Or.inr hmem)

theorem findIdxOf_isSome {α : Type} [DecidableEq α] (l : List α) (n : α) :
    (findIdxOf l n).isSome ↔ n ∈ l := by
  rw [← Decidable.not_not (p := n ∈ l), ← findIdxOf_eq_none l n]
  cases findIdxOf l n <;> simp

theorem findIdxOf_lt_length {α : Type} [DecidableEq α] :
    ∀ (l : List α) (n : α) (i : Nat), findIdxOf l n = some i → i < l.length
  | [], n, i => by simp [findIdxOf]
  | m :: t, n, i => by
    rw [findIdxOf]
    by_cases h : m = n
    · rw [if_pos h]
      rintro ⟨rfl⟩
      simp
    · rw [if_neg h]
      match hf : findIdxOf t n with
      | none => simp
      | some j =>
        intro hj
        simp only [Option.map_some', Option.some.injEq] at hj
        have := findIdxOf_lt_length t n j hf
        simp only [List.length_cons]
        omega

theorem findIdxOf_getD {α : Type} [DecidableEq α] (d : α) :
    ∀ (l : List α) (n : α) (i : Nat), findIdxOf l n = some i → l.getD i d = n
  | [], n, i => by simp [findIdxOf]
  | m :: t, n, i => by
    rw [findIdxOf]
    by_cases h : m = n
    · rw [if_pos h]
      rintro ⟨rfl⟩
      simpa using h
    · rw [if_neg h]
      match hf : findIdxOf t n with
      | none => simp
      | some j =>
        intro hj
        simp only [Option.map_some', Option.some.injEq] at hj
        subst hj
        simpa using findIdxOf_getD d t n j hf

theorem findIdxOf_range' :
    ∀ (m s n : Nat), findIdxOf (List.range' s m) n =
      if s ≤ n ∧ n < s + m then some (n - s) else none
  | 0, s, n => by
    have hno : ¬(s ≤ n ∧ n < s + 0) := by omega
    simp only [List.range', findIdxOf, if_neg hno]
  | m + 1, s, n => by
    rw [List.range'_succ, findIdxOf]
    by_cases h : s = n
    · subst h
      rw [if_pos rfl, if_pos (by omega)]
      simp
    · rw [if_neg h, findIdxOf_range' m (s + 1) n]
      by_cases h2 : s + 1 ≤ n ∧ n < s + 1 + m
      · rw [if_pos h2, if_pos (by omega)]
        simp only [Option.map_some', Option.some.injEq]
        omega
      · rw [if_neg h2, if_neg (by omega)]
        simp

theorem mem_groupNums_of_grp :
    ∀ (segs : List Seg) (c : List Char), Seg.grp c ∈ segs →
      ∀ n ∈ parseNums c, n ∈ groupNums segs
  | [], c, h => by simp at h
  | Seg.lit s :: t, c, h => by
    rw [groupNums]
    exact mem_groupNums_of_grp t c (by simpa using h)
  | Seg.grp g :: t, c, h => by
    rw [groupNums]
    intro n hn
    rcases List.mem_cons.mp h with heq | hmem
    · cases heq
      exact List.mem_append.mpr (Or.inl hn)
    · exact List.mem_append.mpr (Or.inr (mem_groupNums_of_grp t c hmem n hn))

theorem mem_citationOrder (t : List Char) (n : Nat) :
    n ∈ citationOrder t ↔ n ∈ groupNums (scanSegs t) := by
  rw [citationOrder, mem_dedupFirst]

theorem length_filterMap_eq {α β : Type} (f : α → Option β) :
    ∀ l : List α, (l.filterMap f).length = (l.filter (fun a => (f a).isSome)).length
  | [] => rfl
  | a :: l => by
    rw [List.filterMap_cons, List.filter_cons]
    match hf : f a with
    | none => simpa using length_filterMap_eq f l
    | some b =>
      simp only [hf, Option.isSome_some, if_pos]
      simpa using length_filterMap_eq f l

theorem filterMap_eq_map_of_forall {α β : Type} (f : α → Option β) (g : α → β) :
    ∀ l : List α, (∀ x ∈ l, f x = some (g x)) → l.filterMap f = l.map g
  | [], _ => rfl
  | a :: l, h => by
    rw [List.filterMap_cons, h a (by simp), List.map_cons,
      filterMap_eq_map_of_forall f g l (fun x hx => h x (by simp [hx]))]

theorem get?_isSome_iff {α : Type} : ∀ (l : List α) (i : Nat),
    (l.get? i).isSome = true ↔ i < l.length
  | [], i => by simp
  | a :: t, 0 => by simp
  | a :: t, k + 1 => by simpa using get?_isSome_iff t k

theorem jsIndex_natCast {α : Type} (l : List α) (n : Nat) :
    jsIndex l ((n : Int) - 1) = if n = 0 then none else l.get? (n - 1) := by
  match n with
  | 0 => rfl
  | k + 1 =>
    rw [jsIndex, if_neg (by omega), if_neg (by omega)]
    congr 1
    omega

theorem jsIndex_isSome {α : Type} (l : List α) (n : Nat) :
    (jsIndex l ((n : Int) - 1)).isSome ↔ 1 ≤ n ∧ n ≤ l.length := by
  rw [jsIndex_natCast]
  by_cases h0 : n = 0
  · subst h0
    simp
  · rw [if_neg h0]
    rw [get?_isSome_iff]
    omega


theorem renderSegs_congr (f g : List Char → List Char) :
    ∀ segs : List Seg, (∀ c, Seg.grp c ∈ segs → f c = g c) →
      renderSegs f segs = renderSegs g segs
  | [], _ => rfl
  | Seg.lit s :: t, h => by
    rw [renderSegs, renderSegs,
      renderSegs_congr f g t (fun c hc => h c (by simp [hc]))]
  | Seg.grp c :: t, h => by
    rw [renderSegs, renderSegs, h c (by simp),
      renderSegs_congr f g t (fun d hd => h d (by simp [hd]))]

theorem groupNums_of_no_groups :
    ∀ segs : List Seg, segsGroups segs = [] → groupNums segs = []
  | [], _ => rfl
  | Seg.lit s :: t, h => by
    rw [groupNums]
    exact groupNums_of_no_groups t (by simpa [segsGroups] using h)
  | Seg.grp c :: t, h => by simp [segsGroups] at h

theorem grp_mem_segsGroups :
    ∀ (segs : List Seg) (c : List Char), Seg.grp c ∈ segs → c ∈ segsGroups segs
  | [], c, h => by simp at h
  | Seg.lit s :: t, c, h => by
    rw [segsGroups]
    exact grp_mem_segsGroups t c (by simpa using h)
  | Seg.grp g :: t, c, h => by
    rw [segsGroups]
    rcases List.mem_cons.mp h with heq | hmem
    · cases heq
      simp
    · exact List.mem_cons.mpr (Or.inr (grp_mem_segsGroups t c hmem))

theorem parseNums_ne_nil (c : List Char) : parseNums c ≠ [] := by
  rw [parseNums]
  intro h
  exact splitOnComma_ne_nil c (List.map_eq_nil_iff.mp h)

theorem dedupFirst_ne_nil {α : Type} [DecidableEq α] :
    ∀ l : List α, l ≠ [] → dedupFirst l ≠ []
  | [], h => absurd rfl h
  | n :: t, _ => by
    rw [dedupFirst]
    simp

theorem matchAux_run_digits :
    ∀ (ds r : List Char), (∀ c ∈ ds, isDigitChar c = true) →
      matchAux .run (ds ++ r) = (matchAux .run r).map (fun p => (ds ++ p.1, p.2))
  | [], r, _ => by
    cases hm : matchAux .run r <;> simp [hm]
  | d :: ds, r, h => by
    rw [List.cons_append, matchAux, if_pos (h d (by simp)),
      matchAux_run_digits ds r (fun c hc => h c (by simp [hc]))]
    cases matchAux .run r <;> simp

theorem matchAux_start_eq_run (c : Char) (cs : List Char)
    (h : isDigitChar c = true) :
    matchAux .start (c :: cs) = matchAux .run (c :: cs) := by
  rw [matchAux, matchAux, if_pos h, if_pos h]

theorem matchAux_afterComma_eq_run (c : Char) (cs : List Char)
    (h : isDigitChar c = true) :
    matchAux .afterComma (c :: cs) = matchAux .run (c :: cs) := by
  rw [matchAux, matchAux, if_pos h, if_pos h,
    if_neg (by rw [(isDigitChar_class h).1]; simp)]

theorem join_natToChars_head :
    ∀ ns : List Nat, ns ≠ [] → ∃ d tl,
      joinCommaSp (ns.map natToChars) = d :: tl ∧ isDigitChar d = true
  | [], h => absurd rfl h
  | n :: rest, _ => by
    match hn : natToChars n with
    | [] => exact absurd hn (natToChars_ne_nil n)
    | d :: ds =>
      have hd : isDigitChar d = true := by
        have := natToChars_digits n d
        rw [hn] at this
        exact this (by simp)
      match rest with
      | [] => exact ⟨d, ds, by rw [List.map_cons, List.map_nil, joinCommaSp, hn], hd⟩
      | m :: r =>
        refine ⟨d, ds ++ ',' :: ' ' :: joinCommaSp ((m :: r).map natToChars), ?_, hd⟩
        have hj : joinCommaSp (natToChars n :: List.map natToChars (m :: r)) =
            natToChars n ++ ',' :: ' ' :: joinCommaSp (List.map natToChars (m :: r)) := by
          rw [List.map_cons]
          exact joinCommaSp_cons₂ _ _ _
        rw [List.map_cons, hj, hn, List.cons_append]

theorem matchAux_run_join :
    ∀ (ns : List Nat) (w : List Char), ns ≠ [] →
      matchAux .run (joinCommaSp (ns.map natToChars) ++ ']' :: w) =
        some (joinCommaSp (ns.map natToChars), w)
  | [], _, h => absurd rfl h
  | [n], w, _ => by
    rw [List.map_cons, List.map_nil, joinCommaSp,
      matchAux_run_digits (natToChars n) _ (natToChars_digits n),
      show matchAux .run (']' :: w) = some ([], w) from by
        rw [matchAux, if_neg (by decide), if_pos rfl]]
    simp
  | n :: m :: r, w, _ => by
    have ih := matchAux_run_join (m :: r) w (by simp)
    obtain ⟨d, tl, hdtl, hd⟩ := join_natToChars_head (m :: r) (by simp)
    have hj : joinCommaSp (natToChars n :: List.map natToChars (m :: r)) =
        natToChars n ++ ',' :: ' ' :: joinCommaSp (List.map natToChars (m :: r)) := by
      rw [List.map_cons]
      exact joinCommaSp_cons₂ _ _ _
    rw [List.map_cons, hj, List.append_assoc,
      matchAux_run_digits (natToChars n) _ (natToChars_digits n), List.cons_append,
      show ∀ x : List Char, matchAux .run (',' :: x) =
          (matchAux .afterComma x).map (fun p => (',' :: p.1, p.2)) from
        fun x => by rw [matchAux, if_neg (by decide), if_neg (by decide), if_pos rfl],
      List.cons_append,
      show ∀ x : List Char, matchAux .afterComma (' ' :: x) =
          (matchAux .afterComma x).map (fun p => (' ' :: p.1, p.2)) from
        fun x => by rw [matchAux, if_pos (by decide)]]
    rw [show joinCommaSp (List.map natToChars (m :: r)) ++ ']' :: w =
        d :: (tl ++ ']' :: w) from by rw [hdtl]; simp,
      matchAux_afterComma_eq_run d _ hd]
    rw [show (d : Char) :: (tl ++ ']' :: w) =
        (d :: tl) ++ ']' :: w from by simp, ← hdtl, ih]
    simp

theorem matchGroup_cons (c : Char) (cs : List Char) :
    matchGroup (c :: cs) = if c = '[' then matchAux .start cs else none := rfl

theorem matchGroup_renderGroup (ns : List Nat) (w : List Char) (h : ns ≠ []) :
    matchGroup (renderGroup ns ++ w) =
      some (joinCommaSp (ns.map natToChars), w) := by
  obtain ⟨d, tl, hdtl, hd⟩ := join_natToChars_head ns h
  rw [renderGroup, List.append_assoc, List.singleton_append, List.cons_append,
    matchGroup_cons, if_pos rfl,
    show joinCommaSp (ns.map natToChars) ++ ']' :: w = d :: (tl ++ ']' :: w) from by
      rw [hdtl]; simp,
    matchAux_start_eq_run d _ hd]
  rw [show (d : Char) :: (tl ++ ']' :: w) = (d :: tl) ++ ']' :: w from by simp, ← hdtl]
  exact matchAux_run_join ns w h

theorem scanSegs_renderGroup (ns : List Nat) (h : ns ≠ []) :
    scanSegs (renderGroup ns) = [Seg.grp (joinCommaSp (ns.map natToChars))] := by
  have hm := matchGroup_renderGroup ns [] h
  rw [List.append_nil, renderGroup, List.cons_append] at hm
  have h2 := scanSegs_grp '[' (joinCommaSp (ns.map natToChars) ++ [']'])
    (joinCommaSp (ns.map natToChars)) [] hm
  rw [renderGroup, List.cons_append, h2, scanSegs_nil]

theorem groupNums_renderGroup (ns : List Nat) (h : ns ≠ []) :
    groupNums (scanSegs (renderGroup ns)) = ns := by
  rw [scanSegs_renderGroup ns h, groupNums, groupNums, List.append_nil,
    parseNums_join ns h]


theorem newNumber_mem {order : List Nat} {n : Nat} (h : n ∈ order) :
    ∃ k, newNumber order n = some k ∧ 1 ≤ k ∧ k ≤ order.length := by
  match hf : findIdxOf order n with
  | none => exact absurd ((findIdxOf_eq_none order n).mp hf) (by simpa using h)
  | some i =>
    refine ⟨i + 1, ?_, by omega, ?_⟩
    · rw [newNumber, hf, Option.map_some']
    · have := findIdxOf_lt_length order n i hf
      omega

theorem reorderedEvidence_length (t : List Char) (cits : List Citation) :
    (reorderedEvidence t cits).length = ((citationOrder t).filter
      (fun n => decide (1 ≤ n) && decide (n ≤ cits.length))).length := by
  rw [reorderedEvidence, length_filterMap_eq]
  congr 1
  apply List.filter_congr
  intro n _
  rw [Bool.eq_iff_iff]
  rw [Option.isSome_iff_exists]
  constructor
  · rintro ⟨x, hx⟩
    have := (jsIndex_isSome cits n).mp (by rw [hx]; rfl)
    simp [this.1, this.2]
  · intro hb
    simp only [Bool.and_eq_true, decide_eq_true_eq] at hb
    have := (jsIndex_isSome cits n).mpr hb
    exact Option.isSome_iff_exists.mp this

/-- Claim C5: an answer text containing no bracket groups at all is
returned unchanged by normalization, together with an empty evidence list;
normalization is a total function, so this is an ordinary (ungrounded)
result, not an error. -/
theorem claim_C5 (t : List Char) (cits : List Citation)
    (h : segsGroups (scanSegs t) = []) : normalize t cits = (t, []) := by
  have hg : groupNums (scanSegs t) = [] := groupNums_of_no_groups _ h
  have hord : citationOrder t = [] := by rw [citationOrder, hg]; rfl
  rw [normalize, processedText, reorderedEvidence]
  rw [renderSegs_congr (rewriteGroup (citationOrder t)) bracketed (scanSegs t)
    (fun c hc => absurd (grp_mem_segsGroups _ c hc) (by rw [h]; simp))]
  rw [renderSegs_scanSegs, hord]
  rfl

theorem claim_C5_witness :
    segsGroups (scanSegs "The policy does not cover data exports.".data) = [] ∧
    normalize "The policy does not cover data exports.".data [default] =
      ("The policy does not cover data exports.".data, []) :=
  ⟨by decide, claim_C5 _ _ (by decide)⟩

/-- Claim C3 (amended): an out-of-range citation index is not discarded
from the rewritten text — the map from old to new numbers is built without
consulting the evidence list at all, so the rewritten text is independent
of the evidence and keeps a marker for every bracket group — but an
out-of-range index contributes nothing to the reordered evidence list, and
no error is raised (every evidence item selected comes from a referenced
index within bounds). -/
theorem claim_C3 :
    (∀ (t : List Char) (e1 e2 : List Citation),
      (normalize t e1).1 = (normalize t e2).1) ∧
    (∀ (t : List Char) (e : List Citation), ∀ x ∈ (normalize t e).2,
      ∃ n, n ∈ citationOrder t ∧ 1 ≤ n ∧ n ≤ e.length ∧
        e.get? (n - 1) = some x) := by
  constructor
  · intro t e1 e2
    rfl
  · intro t e x hx
    rw [normalize] at hx
    obtain ⟨n, hn, hj⟩ := List.mem_filterMap.mp hx
    have hs : 1 ≤ n ∧ n ≤ e.length :=
      (jsIndex_isSome e n).mp (by rw [hj]; rfl)
    refine ⟨n, hn, hs.1, hs.2, ?_⟩
    rw [jsIndex_natCast, if_neg (by omega)] at hj
    exact hj

theorem claim_C3_witness :
    ∃ n, n ∈ citationOrder "cited [2] here".data ∧ 1 ≤ n ∧
      n ≤ [(default : Citation), default].length ∧
      [(default : Citation), default].get? (n - 1) = some default :=
  claim_C3.2 "cited [2] here".data [default, default] default (by decide)

/-- Counterexample to claim C3 as stated: for the answer `"see [99]."`
over five evidence items, the claim predicts that the out-of-range index
`99` is discarded and the emptied marker removed, giving `"see ."`; the
code instead assigns `99` the new number `1` and keeps the marker, giving
`"see [1]."` (while the reordered evidence is indeed empty). -/
theorem claim_C3_cex :
    (normalize "see [99].".data (List.replicate 5 default)).1 ≠ "see .".data ∧
    (normalize "see [99].".data (List.replicate 5 default)).1 = "see [1].".data ∧
    (normalize "see [99].".data (List.replicate 5 default)).2 = [] := by
  decide

/-- Claim C2 (amended): the reordered evidence list's length equals the
number of distinct valid indices (those within `1..len(evidence)`)
referenced in the raw text; and, provided every referenced index is within
`1..len(evidence)`, every bracket group of the output text — obtained by
rewriting a bracket group of the input — carries only numbers that index
the reordered evidence list in bounds.  (Without that proviso the second
part fails; see the counterexample.) -/
theorem claim_C2 (t : List Char) (cits : List Citation) :
    (normalize t cits).2.length = ((dedupFirst (groupNums (scanSegs t))).filter
      (fun n => decide (1 ≤ n) && decide (n ≤ cits.length))).length ∧
    ((∀ n ∈ groupNums (scanSegs t), 1 ≤ n ∧ n ≤ cits.length) →
      ∀ c, Seg.grp c ∈ scanSegs t →
        ∀ k ∈ groupNums (scanSegs (rewriteGroup (citationOrder t) c)),
          1 ≤ k ∧ k ≤ (normalize t cits).2.length) := by
  constructor
  · exact reorderedEvidence_length t cits
  · intro hval c hc k hk
    have hmemord : ∀ n ∈ dedupFirst (parseNums c), n ∈ citationOrder t := by
      intro n hn
      rw [mem_citationOrder]
      exact mem_groupNums_of_grp _ c hc n ((mem_dedupFirst n _).mp hn)
    have hlen : (normalize t cits).2.length = (citationOrder t).length := by
      show (reorderedEvidence t cits).length = _
      rw [reorderedEvidence_length]
      congr 1
      rw [List.filter_eq_self]
      intro n hn
      have := hval n ((mem_citationOrder t n).mp hn)
      simp [this.1, this.2]
    have hns : ((dedupFirst (parseNums c)).filterMap
        (newNumber (citationOrder t))).insertionSort (· ≤ ·) ≠ [] := by
      have hmap : (dedupFirst (parseNums c)).filterMap (newNumber (citationOrder t)) =
          (dedupFirst (parseNums c)).map
            (fun n => ((findIdxOf (citationOrder t) n).getD 0) + 1) := by
        apply filterMap_eq_map_of_forall
        intro n hn
        have hmem := hmemord n hn
        match hf : findIdxOf (citationOrder t) n with
        | none => exact absurd ((findIdxOf_eq_none _ n).mp hf) (by simpa using hmem)
        | some i => simp [newNumber, hf]
      intro hnil
      have := (List.perm_insertionSort (· ≤ ·)
        ((dedupFirst (parseNums c)).filterMap (newNumber (citationOrder t)))).length_eq
      rw [hnil, hmap] at this
      simp only [List.length_nil, List.length_map] at this
      exact dedupFirst_ne_nil _ (parseNums_ne_nil c) (List.length_eq_zero.mp this.symm)
    rw [rewriteGroup, groupNums_renderGroup _ hns] at hk
    have hk2 := (List.perm_insertionSort (· ≤ ·) _).subset hk
    obtain ⟨n, _, hkn⟩ := List.mem_filterMap.mp hk2
    simp only [newNumber] at hkn
    match hf : findIdxOf (citationOrder t) n with
    | none => rw [hf] at hkn; simp at hkn
    | some i =>
      rw [hf, Option.map_some', Option.some.injEq] at hkn
      have hb := findIdxOf_lt_length _ n i hf
      rw [hlen]
      omega

theorem claim_C2_witness :
    (normalize "as [2] shows, and [1, 2] confirm".data [default, default]).2.length =
      ((dedupFirst (groupNums (scanSegs "as [2] shows, and [1, 2] confirm".data))).filter
        (fun n => decide (1 ≤ n) && decide (n ≤ 2))).length ∧
    (1 ≤ 1 ∧ 1 ≤ (normalize "as [2] shows, and [1, 2] confirm".data
      [default, default]).2.length) :=
  ⟨(claim_C2 "as [2] shows, and [1, 2] confirm".data [default, default]).1,
    (claim_C2 "as [2] shows, and [1, 2] confirm".data [default, default]).2
      (by decide) "2".data (by decide) 1 (by decide)⟩

/-- Counterexample to claim C2 as stated: for the answer `"[99] [1]"` over
a single evidence item, the rewritten text is `"[1] [2]"` but the reordered
evidence has length 1, so the output marker `[2]` cannot be answered by
indexing the reordered evidence list. -/
theorem claim_C2_cex :
    (normalize "[99] [1]".data [default]).1 = "[1] [2]".data ∧
    (normalize "[99] [1]".data [default]).2.length = 1 ∧
    ¬(∀ k ∈ groupNums (scanSegs (normalize "[99] [1]".data [default]).1),
        1 ≤ k ∧ k ≤ (normalize "[99] [1]".data [default]).2.length) := by
  refine ⟨by decide, by decide, ?_⟩
  intro h
  have h2 := (h 2 (by decide)).2
  have h1 : (normalize "[99] [1]".data [default]).2.length = 1 := by decide
  omega


theorem newNumber_range' (m n : Nat) (h1 : 1 ≤ n) (h2 : n ≤ m) :
    newNumber (List.range' 1 m) n = some n := by
  rw [newNumber, findIdxOf_range', if_pos (by omega), Option.map_some']
  congr 1
  omega

theorem rewriteGroup_canonical (order : List Nat) (c : List Char)
    (hsort : (parseNums c).Sorted (· < ·))
    (hfmt : c = joinCommaSp ((parseNums c).map natToChars))
    (hmap : ∀ n ∈ parseNums c, newNumber order n = some n) :
    rewriteGroup order c = bracketed c := by
  rw [rewriteGroup, dedupFirst_of_nodup _ hsort.nodup,
    filterMap_eq_map_of_forall _ id _ (fun n hn => by simpa using hmap n hn),
    List.map_id, List.Sorted.insertionSort_eq (hsort.imp (fun hab => le_of_lt hab)),
    renderGroup, bracketed, ← hfmt]

theorem filterMap_jsIndex_range :
    ∀ cits : List Citation, (List.range' 1 cits.length).filterMap
      (fun (n : Nat) => jsIndex cits ((n : Int) - 1)) = cits
  | [] => rfl
  | c :: tl => by
    have step : (List.range' 2 tl.length).filterMap
        (fun (n : Nat) => jsIndex (c :: tl) ((n : Int) - 1)) = tl := by
      have ih := filterMap_jsIndex_range tl
      rw [List.range'_eq_map_range, List.filterMap_map] at ih ⊢
      calc List.filterMap ((fun (n : Nat) => jsIndex (c :: tl) ((n : Int) - 1)) ∘
              fun x => 2 + x) (List.range tl.length)
          = List.filterMap ((fun (n : Nat) => jsIndex tl ((n : Int) - 1)) ∘
              fun x => 1 + x) (List.range tl.length) := by
            congr 1
            funext i
            show jsIndex (c :: tl) (((2 + i : Nat) : Int) - 1) =
              jsIndex tl (((1 + i : Nat) : Int) - 1)
            rw [jsIndex_natCast, jsIndex_natCast, if_neg (by omega), if_neg (by omega),
              show 2 + i - 1 = i + 1 from by omega, show 1 + i - 1 = i from by omega,
              List.get?_cons_succ]
        _ = tl := ih
    rw [List.length_cons, List.range'_succ,
      @List.filterMap_cons_some Nat Citation
        (fun (n : Nat) => jsIndex (c :: tl) ((n : Int) - 1)) 1
        (List.range' (1 + 1) tl.length) c rfl,
      show (1 + 1 : Nat) = 2 from rfl, step]

/-- Claim C4 (amended): normalization is a no-op on an answer whose
distinct citation numbers, in order of first appearance, are exactly
1, 2, 3, … and whose bracket groups are already deduplicated, sorted
ascending, and written in the canonical `"[a, b]"` format with a comma and
one space between numbers; the evidence comes back in its given order when
it is exactly covered by the referenced numbers.  (Without the sortedness
and formatting provisos the claim fails; see the counterexample.) -/
theorem claim_C4 (t : List Char) (cits : List Citation)
    (hseq : citationOrder t = List.range' 1 (citationOrder t).length)
    (hgroups : ∀ c ∈ segsGroups (scanSegs t),
      (parseNums c).Sorted (· < ·) ∧ c = joinCommaSp ((parseNums c).map natToChars)) :
    (normalize t cits).1 = t ∧
    (cits.length = (citationOrder t).length → (normalize t cits).2 = cits) := by
  constructor
  · show processedText t = t
    rw [processedText,
      renderSegs_congr (rewriteGroup (citationOrder t)) bracketed _ ?_,
      renderSegs_scanSegs]
    intro c hc
    have hg := hgroups c (grp_mem_segsGroups _ c hc)
    apply rewriteGroup_canonical _ _ hg.1 hg.2
    intro n hn
    have hmem : n ∈ citationOrder t :=
      (mem_citationOrder t n).mpr (mem_groupNums_of_grp _ c hc n hn)
    rw [hseq] at hmem
    obtain ⟨hm1, hm2⟩ := List.mem_range'_1.mp hmem
    rw [hseq]
    exact newNumber_range' _ n hm1 (by omega)
  · intro hlen
    show reorderedEvidence t cits = cits
    rw [reorderedEvidence, hseq, ← hlen]
    exact filterMap_jsIndex_range cits

theorem claim_C4_witness :
    (normalize "ab [1] cd [2, 3] ef".data (List.replicate 3 default)).1 =
      "ab [1] cd [2, 3] ef".data ∧
    (normalize "ab [1] cd [2, 3] ef".data (List.replicate 3 default)).2 =
      List.replicate 3 default :=
  have h := claim_C4 "ab [1] cd [2, 3] ef".data (List.replicate 3 default)
    (by decide) (by decide)
  ⟨h.1, h.2 (by decide)⟩

/-- Counterexample to claim C4 as stated: the answer
`"[1] [2] [3] [3, 2]"` has sequential citation numbers in order of first
appearance (1, 2, 3) and no duplicates inside any bracket group, yet
normalization rewrites the last group to `[2, 3]` because the replace
callback also sorts within each group. -/
theorem claim_C4_cex :
    citationOrder "[1] [2] [3] [3, 2]".data =
      List.range' 1 (citationOrder "[1] [2] [3] [3, 2]".data).length ∧
    (∀ c ∈ segsGroups (scanSegs "[1] [2] [3] [3, 2]".data), (parseNums c).Nodup) ∧
    (normalize "[1] [2] [3] [3, 2]".data (List.replicate 3 default)).1 ≠
      "[1] [2] [3] [3, 2]".data ∧
    (normalize "[1] [2] [3] [3, 2]".data (List.replicate 3 default)).1 =
      "[1] [2] [3] [2, 3]".data := by
  decide


/-- Claim C6: submitting a batch-analyze or custom-column job whose target
document set is empty is rejected before any job is created: the handler
returns a 404 error response, no job id is issued, and the backend
job-creation endpoint is never invoked. -/
theorem claim_C6 (docs : List BackendDoc) (b1 b2 : List MappedDoc → JobResp)
    (h : docs = []) :
    batchAnalyzePOST docs b1 =
      { status := 404, jobId := none, backendJobCalled := false } ∧
    customColumnPOST docs b2 =
      { status := 404, jobId := none, backendJobCalled := false } := by
  subst h
  exact ⟨rfl, rfl⟩

theorem claim_C6_witness :
    batchAnalyzePOST [] (fun _ => ⟨true, 200, some "job-1", none⟩) =
      { status := 404, jobId := none, backendJobCalled := false } ∧
    customColumnPOST [] (fun _ => ⟨true, 200, some "job-2", none⟩) =
      { status := 404, jobId := none, backendJobCalled := false } :=
  claim_C6 [] _ _ rfl

/-- Claim C7 (modelled from the spec, §4.1): when the reranker is
unreachable, retrieval degrades gracefully instead of failing: the result
is exactly the fused (reciprocal-rank-fusion) pre-rerank order truncated to
`k`, and in particular has at most `k` items. -/
theorem claim_C7 (lex vec : List String)
    (rerank : List String → Option (List String)) (k : Nat)
    (h : rerank ((fusedCandidates lex vec).take (max (4 * k) 20)) = none) :
    retrieve lex vec rerank k = (fusedCandidates lex vec).take k ∧
    (retrieve lex vec rerank k).length ≤ k := by
  have hM : k ≤ max (4 * k) 20 := by
    rcases Nat.le_total (4 * k) 20 with h20 | h20
    · exact le_trans (by omega) (Nat.le_max_right _ _)
    · exact le_trans (by omega) (Nat.le_max_left _ _)
  have hr : retrieve lex vec rerank k =
      ((fusedCandidates lex vec).take (max (4 * k) 20)).take k := by
    rw [retrieve]
    simp only [h]
  rw [List.take_take, min_eq_left hM] at hr
  refine ⟨hr, ?_⟩
  rw [hr, List.length_take]
  exact min_le_left _ _

theorem claim_C7_witness :
    retrieve ["a", "b"] ["b", "c"] (fun _ => none) 2 =
      (fusedCandidates ["a", "b"] ["b", "c"]).take 2 ∧
    (retrieve ["a", "b"] ["b", "c"] (fun _ => none) 2).length ≤ 2 :=
  claim_C7 ["a", "b"] ["b", "c"] (fun _ => none) 2 rfl

/-- Claim C8: when an interactive ask fails — the backend call errors or
returns a non-OK status — the response surfaced to the caller carries the
failure status and an error message, and contains no answer text and no
citations; the chat interface's own failure path likewise attaches no
references to its fallback message. -/
theorem claim_C8 (r : BackendResult) (hfail : ∀ d, r ≠ BackendResult.success d) :
    (qaPOST r).answer = none ∧ (qaPOST r).citations = none ∧
    (qaPOST r).error.isSome = true ∧
    (∀ s b, r = BackendResult.httpError s b → (qaPOST r).status = s) ∧
    (∀ m, r = BackendResult.netError m → (qaPOST r).status = 500) ∧
    chatErrorFallback.references = none := by
  match r with
  | .success d => exact absurd rfl (hfail d)
  | .httpError s b =>
    refine ⟨rfl, rfl, rfl, ?_, ?_, rfl⟩
    · intro s' b' heq
      cases heq
      rfl
    · intro m heq
      exact BackendResult.noConfusion heq
  | .netError m =>
    refine ⟨rfl, rfl, rfl, ?_, ?_, rfl⟩
    · intro s' b' heq
      exact BackendResult.noConfusion heq
    · intro m' heq
      rfl

theorem claim_C8_witness :
    (qaPOST (BackendResult.httpError 502 "upstream down")).answer = none ∧
    (qaPOST (BackendResult.httpError 502 "upstream down")).citations = none ∧
    (qaPOST (BackendResult.httpError 502 "upstream down")).status = 502 :=
  have h := claim_C8 (BackendResult.httpError 502 "upstream down")
    (fun _ heq => BackendResult.noConfusion heq)
  ⟨h.1, h.2.1, h.2.2.2.1 502 "upstream down" rfl⟩


theorem mem_renderText_iff (refs : List Reference) :
    ∀ (segs : List Seg) (node : RenderNode),
      node ∈ segs.foldr (fun s acc => renderSeg refs s ++ acc) [] ↔
        ∃ sg ∈ segs, node ∈ renderSeg refs sg
  | [], node => by simp
  | sg :: t, node => by
    rw [List.foldr_cons, List.mem_append, mem_renderText_iff refs t node]
    constructor
    · rintro (h | ⟨sg2, hsg2, hn⟩)
      · exact ⟨sg, by simp, h⟩
      · exact ⟨sg2, by simp [hsg2], hn⟩
    · rintro ⟨sg2, hsg2, hn⟩
      rcases List.mem_cons.mp hsg2 with rfl | hm
      · exact Or.inl hn
      · exact Or.inr ⟨sg2, hm, hn⟩

/-- Claim C10: the `CitationText` renderer never fails on a dangling
citation: every citation chip it emits is backed by an existing entry of
the reference list at the marker's 1-based position (so a number with no
entry — too large, or zero — is silently omitted rather than thrown), and
every text segment that is not a bracket group of comma-separated integers
is passed through as a plain text span, unchanged. -/
theorem claim_C10 (t : List Char) (refs : List Reference) :
    (∀ node ∈ renderText t refs, ∀ (n : Nat) (r : Reference),
      node = RenderNode.cite n r →
        1 ≤ n ∧ n ≤ refs.length ∧ refs.get? (n - 1) = some r) ∧
    (∀ s, Seg.lit s ∈ scanSegs t → RenderNode.plain s ∈ renderText t refs) := by
  constructor
  · intro node hnode n r heq
    subst heq
    obtain ⟨sg, _, hmem⟩ := (mem_renderText_iff refs (scanSegs t) _).mp hnode
    match sg with
    | Seg.lit s =>
      rw [renderSeg] at hmem
      simp at hmem
    | Seg.grp c =>
      rw [renderSeg] at hmem
      obtain ⟨n', _, hj⟩ := List.mem_filterMap.mp hmem
      match hx : jsIndex refs ((n' : Int) - 1) with
      | none => rw [hx] at hj; simp at hj
      | some x =>
        rw [hx, Option.map_some', Option.some.injEq] at hj
        obtain ⟨rfl, rfl⟩ := RenderNode.cite.inj hj.symm
        have hb := (jsIndex_isSome refs n).mp (by rw [hx]; rfl)
        refine ⟨hb.1, hb.2, ?_⟩
        rw [jsIndex_natCast, if_neg (by omega)] at hx
        exact hx
  · intro s hs
    exact (mem_renderText_iff refs (scanSegs t) _).mpr
      ⟨Seg.lit s, hs, by rw [renderSeg]; simp⟩

theorem claim_C10_witness :
    RenderNode.plain " end".data ∈
      renderText "go [3] end".data [⟨"i", "d", "n", none, "s"⟩] ∧
    renderText "go [3] end".data [⟨"i", "d", "n", none, "s"⟩] =
      [RenderNode.plain "go ".data, RenderNode.plain " end".data] :=
  ⟨(claim_C10 "go [3] end".data [⟨"i", "d", "n", none, "s"⟩]).2 " end".data (by decide),
    by decide⟩

/-- Claim C9 (amended): the answer-processing step is deterministic in the
pair of raw answer text and citation list in everything except the
synthesized reference `id` strings, which embed the `Date.now()` timestamp:
two runs produce identical processed text and reference lists whose
evidence payloads (document id, title, page, snippet) agree item by item,
but whose `id` fields differ when the clock has advanced. -/
theorem claim_C9 (ts1 ts2 : Nat) (t : List Char) (cits : List Citation) :
    (processAnswer ts1 t cits).1 = (processAnswer ts2 t cits).1 ∧
    (processAnswer ts1 t cits).2.map refPayload =
      (processAnswer ts2 t cits).2.map refPayload := by
  refine ⟨rfl, ?_⟩
  show (reorderedReferences ts1 t cits).map refPayload =
    (reorderedReferences ts2 t cits).map refPayload
  rw [reorderedReferences, reorderedReferences]
  induction (citationOrder t).enum with
  | nil => rfl
  | cons p l ih =>
    rw [List.filterMap_cons, List.filterMap_cons]
    match hj : jsIndex cits ((p.2 : Int) - 1) with
    | none => simpa using ih
    | some x =>
      rw [Option.map_some', Option.map_some', List.map_cons, List.map_cons, ih]
      exact rfl

/-- Counterexample to claim C9 as stated: running the processing step twice
on the same inputs with the clock advanced by one millisecond produces
different reordered reference lists (the `id` fields differ), even though
the processed text is identical. -/
theorem claim_C9_cex :
    (processAnswer 0 "cited [1] here".data [default]).2 ≠
      (processAnswer 1 "cited [1] here".data [default]).2 ∧
    (processAnswer 0 "cited [1] here".data [default]).1 =
      (processAnswer 1 "cited [1] here".data [default]).1 := by
  decide


theorem lookup_cons_eq {β : Type} (a : Nat) (v : β) (t : List (Nat × β)) :
    List.lookup a ((a, v) :: t) = some v := by
  simp [List.lookup]

theorem lookup_cons_ne {β : Type} (a k : Nat) (v : β) (t : List (Nat × β))
    (h : k ≠ a) : List.lookup a ((k, v) :: t) = List.lookup a t := by
  have hb : (a == k) = false := beq_eq_false_iff_ne.mpr (fun e => h e.symm)
  simp [List.lookup, hb]

theorem lookup_isSome_iff_keys :
    ∀ (table : List (Nat × Nat)) (n : Nat),
      (List.lookup n table).isSome = true ↔ n ∈ table.map Prod.fst
  | [], n => by simp [List.lookup]
  | (k, v) :: t, n => by
    by_cases h : k = n
    · subst h
      rw [lookup_cons_eq]
      simp
    · rw [lookup_cons_ne n k v t h, List.map_cons]
      rw [lookup_isSome_iff_keys t n]
      simp only [List.mem_cons]
      constructor
      · exact fun hm => Or.inr hm
      · rintro (rfl | hm)
        · exact absurd rfl h
        · exact hm

theorem dedupSeen_congr :
    ∀ (l s1 s2 : List Nat), (∀ x, x ∈ s1 ↔ x ∈ s2) →
      dedupSeen s1 l = dedupSeen s2 l
  | [], _, _, _ => rfl
  | n :: t, s1, s2, h => by
    rw [dedupSeen, dedupSeen]
    by_cases hn : n ∈ s1
    · rw [if_pos hn, if_pos ((h n).mp hn)]
      exact dedupSeen_congr t s1 s2 h
    · rw [if_neg hn, if_neg (fun hc => hn ((h n).mpr hc))]
      rw [dedupSeen_congr t (n :: s1) (n :: s2) (fun x => by simp [h x])]

theorem dedupSeen_eq_filter :
    ∀ (l seen : List Nat),
      dedupSeen seen l = (dedupFirst l).filter (fun x => decide (x ∉ seen))
  | [], seen => rfl
  | n :: t, seen => by
    rw [dedupSeen, dedupFirst, List.filter_cons]
    by_cases hn : n ∈ seen
    · rw [if_pos hn, if_neg (by simpa using hn)]
      rw [dedupSeen_eq_filter t seen, List.filter_filter]
      apply List.filter_congr
      intro x _
      by_cases hx : x ∈ seen
      · simp [hx]
      · have : x ≠ n := fun e => hx (e ▸ hn)
        simp [hx, this]
    · rw [if_neg hn, if_pos (by simpa using hn)]
      rw [dedupSeen_eq_filter t (n :: seen), List.filter_filter]
      congr 1
      apply List.filter_congr
      intro x _
      by_cases hx : x = n
      · subst hx
        simp
      · simp [hx]

theorem dedupSeen_nil (l : List Nat) : dedupSeen [] l = dedupFirst l := by
  rw [dedupSeen_eq_filter l []]
  apply List.filter_eq_self.mpr
  intro a _
  simp

theorem specAssign_eq :
    ∀ (ns : List Nat) (table : List (Nat × Nat)),
      specAssign ns table =
        table ++ tableOf (dedupSeen (table.map Prod.fst) ns) table.length
  | [], table => by simp [specAssign, dedupSeen, tableOf]
  | n :: rest, table => by
    rw [specAssign, dedupSeen]
    by_cases h : n ∈ table.map Prod.fst
    · rw [if_pos ((lookup_isSome_iff_keys table n).mpr h), if_pos h]
      exact specAssign_eq rest table
    · rw [if_neg (by rw [lookup_isSome_iff_keys table n]; simpa using h), if_neg h]
      rw [specAssign_eq rest (table ++ [(n, table.length + 1)])]
      have h1 : (table ++ [(n, table.length + 1)]).map Prod.fst =
          table.map Prod.fst ++ [n] := by simp
      have h2 : (table ++ [(n, table.length + 1)]).length = table.length + 1 := by
        simp
      rw [h1, h2, dedupSeen_congr rest (table.map Prod.fst ++ [n])
        (n :: table.map Prod.fst) (fun x => by
          simp only [List.mem_append, List.mem_singleton, List.mem_cons]
          tauto),
        List.append_assoc, List.singleton_append]
      conv_rhs => rw [tableOf]

theorem specTable_eq (t : List Char) :
    specTable t = tableOf (citationOrder t) 0 := by
  rw [specTable, specAssign_eq, citationOrder]
  simp only [List.map_nil, List.length_nil, List.nil_append]
  rw [dedupSeen_nil]

theorem tableOf_length : ∀ (l : List Nat) (k : Nat), (tableOf l k).length = l.length
  | [], _ => rfl
  | n :: t, k => by
    rw [tableOf, List.length_cons, List.length_cons, tableOf_length t (k + 1)]

theorem lookup_tableOf :
    ∀ (l : List Nat) (k n : Nat),
      List.lookup n (tableOf l k) = (findIdxOf l n).map (· + (k + 1))
  | [], k, n => by simp [tableOf, List.lookup, findIdxOf]
  | m :: t, k, n => by
    rw [tableOf, findIdxOf]
    by_cases h : m = n
    · subst h
      rw [lookup_cons_eq, if_pos rfl, Option.map_some']
      simp
    · rw [lookup_cons_ne n m (k + 1) _ h, if_neg h, lookup_tableOf t (k + 1) n]
      match findIdxOf t n with
      | none => rfl
      | some j =>
        simp only [Option.map_some', Option.some.injEq]
        omega


theorem find?_tableOf :
    ∀ (l : List Nat) (k i : Nat), i < l.length →
      (tableOf l k).find? (fun p => p.2 = k + i + 1) =
        some (l.getD i 0, k + i + 1)
  | [], k, i, h => by simp at h
  | m :: t, k, 0, _ => by
    rw [tableOf, List.find?_cons_of_pos _ (by simp)]
    simp
  | m :: t, k, j + 1, h => by
    rw [tableOf, List.find?_cons_of_neg _ (by simp only [decide_eq_true_eq]; omega)]
    have ih := find?_tableOf t (k + 1) j (by simpa using h)
    have harr : k + 1 + j + 1 = k + (j + 1) + 1 := by omega
    rw [harr] at ih
    rw [ih]
    simp

theorem specInverse_tableOf (l : List Nat) (i : Nat) (h : i < l.length) :
    specInverse (tableOf l 0) (i + 1) = l.getD i 0 := by
  have hf := find?_tableOf l 0 i h
  rw [show 0 + i + 1 = i + 1 from by omega] at hf
  rw [specInverse, hf, Option.map_some', Option.getD_some]

theorem map_range_getD (g : Nat → Citation) :
    ∀ l : List Nat,
      (List.range l.length).map (fun i => g (l.getD i 0)) = l.map g
  | [] => rfl
  | n :: t => by
    rw [List.length_cons, List.range_succ_eq_map, List.map_cons, List.map_map,
      List.map_cons]
    congr 1
    · rw [show (fun i => g ((n :: t).getD i 0)) ∘ Nat.succ =
        fun i => g (t.getD i 0) from rfl]
      exact map_range_getD g t

theorem get?_eq_some_getD {α : Type} (l : List α) (i : Nat) (d : α)
    (h : i < l.length) : l.get? i = some (l.getD i d) := by
  rw [List.get?_eq_get h, List.getD_eq_get? l i d, List.get?_eq_get h,
    Option.getD_some]

/-- Claim C1: on well-formed generator output — every referenced index
within `1..len(evidence)` — the citation normalizer of
`handleSendMessage` coincides with the specification's description: walk
all bracket groups in document order, assign each distinct original index
the next sequential number starting at 1 in order of first appearance,
rewrite each group deduplicated/mapped/sorted, and take, for each new
number in order, the evidence item at the corresponding original 1-based
index. -/
theorem claim_C1 (t : List Char) (ev : List Citation)
    (hval : ∀ n ∈ groupNums (scanSegs t), 1 ≤ n ∧ n ≤ ev.length) :
    normalize t ev = specNormalize t ev := by
  have htab := specTable_eq t
  have hlookup : ∀ n : Nat, List.lookup n (specTable t) =
      newNumber (citationOrder t) n := by
    intro n
    rw [htab, lookup_tableOf, newNumber]
  have hsome : ∀ n ∈ citationOrder t, ∃ k, newNumber (citationOrder t) n = some k := by
    intro n hn
    obtain ⟨k, hk, _, _⟩ := newNumber_mem hn
    exact ⟨k, hk⟩
  rw [normalize, specNormalize, Prod.mk.injEq]
  refine ⟨?_, ?_⟩
  · rw [processedText]
    apply renderSegs_congr
    intro c hc
    have hmemord : ∀ n ∈ dedupFirst (parseNums c), n ∈ citationOrder t := by
      intro n hn
      rw [mem_citationOrder]
      exact mem_groupNums_of_grp _ c hc n ((mem_dedupFirst n _).mp hn)
    rw [rewriteGroup, specRewrite, dedupSeen_nil]
    set L := (dedupFirst (parseNums c)).filterMap (newNumber (citationOrder t))
      with hL
    have hmapped : (dedupFirst (parseNums c)).map
        (fun n => (List.lookup n (specTable t)).getD 0) = L := by
      rw [hL]
      symm
      apply filterMap_eq_map_of_forall
      intro n hn
      obtain ⟨k, hk⟩ := hsome n (hmemord n hn)
      rw [hk, hlookup n, hk]
      rfl
    rw [hmapped]
    congr 1
    apply @List.eq_of_perm_of_sorted Nat (· ≤ ·) inferInstance _ _
      ((List.perm_insertionSort (· ≤ ·) L).trans (L.mergeSort_perm _).symm)
    · exact List.sorted_insertionSort (· ≤ ·) L
    · have hs := @List.sorted_mergeSort Nat (fun a b => decide (a ≤ b))
        (fun a b c h1 h2 => decide_eq_true
          (Nat.le_trans (of_decide_eq_true h1) (of_decide_eq_true h2)))
        (fun a b => by rcases Nat.le_total a b with h | h <;> simp [h]) L
      exact hs.imp (fun h => of_decide_eq_true h)
  · rw [reorderedEvidence, htab, tableOf_length]
    have himpl : (citationOrder t).filterMap
        (fun (n : Nat) => jsIndex ev ((n : Int) - 1)) =
        (citationOrder t).map (fun n => ev.getD (n - 1) default) := by
      apply filterMap_eq_map_of_forall
      intro n hn
      have hv := hval n ((mem_citationOrder t n).mp hn)
      rw [jsIndex_natCast, if_neg (by omega)]
      exact get?_eq_some_getD ev (n - 1) default (by omega)
    rw [himpl, ← map_range_getD (fun n => ev.getD (n - 1) default) (citationOrder t)]
    apply List.map_congr_left
    intro i hi
    rw [specInverse_tableOf _ i (by simpa using List.mem_range.mp hi)]

theorem claim_C1_witness :
    normalize "a [2] b [4,4] c [1,3]".data
        [⟨some "d1", "e1", "t1", some 1, "s1"⟩, ⟨some "d2", "e2", "t2", some 2, "s2"⟩,
         ⟨some "d3", "e3", "t3", some 3, "s3"⟩, ⟨some "d4", "e4", "t4", some 4, "s4"⟩] =
      specNormalize "a [2] b [4,4] c [1,3]".data
        [⟨some "d1", "e1", "t1", some 1, "s1"⟩, ⟨some "d2", "e2", "t2", some 2, "s2"⟩,
         ⟨some "d3", "e3", "t3", some 3, "s3"⟩, ⟨some "d4", "e4", "t4", some 4, "s4"⟩] ∧
    (normalize "a [2] b [4,4] c [1,3]".data
        [⟨some "d1", "e1", "t1", some 1, "s1"⟩, ⟨some "d2", "e2", "t2", some 2, "s2"⟩,
         ⟨some "d3", "e3", "t3", some 3, "s3"⟩, ⟨some "d4", "e4", "t4", some 4, "s4"⟩]).1 =
      "a [1] b [2] c [3, 4]".data ∧
    (normalize "a [2] b [4,4] c [1,3]".data
        [⟨some "d1", "e1", "t1", some 1, "s1"⟩, ⟨some "d2", "e2", "t2", some 2, "s2"⟩,
         ⟨some "d3", "e3", "t3", some 3, "s3"⟩, ⟨some "d4", "e4", "t4", some 4, "s4"⟩]).2 =
      [⟨some "d2", "e2", "t2", some 2, "s2"⟩, ⟨some "d4", "e4", "t4", some 4, "s4"⟩,
       ⟨some "d1", "e1", "t1", some 1, "s1"⟩, ⟨some "d3", "e3", "t3", some 3, "s3"⟩] :=
  ⟨claim_C1 "a [2] b [4,4] c [1,3]".data
      [⟨some "d1", "e1", "t1", some 1, "s1"⟩, ⟨some "d2", "e2", "t2", some 2, "s2"⟩,
       ⟨some "d3", "e3", "t3", some 3, "s3"⟩, ⟨some "d4", "e4", "t4", some 4, "s4"⟩]
      (by decide), by decide, by decide⟩

end JurisScope
